import Mathlib

/-!
Shallow embedding of `src/archive_inspector.py` (ArchiveDuplicateInspector).

The program scans a folder and a ZIP archive, fingerprints every regular
file / non-directory entry with chunked SHA-256, builds a reverse index
from folder digests to folder paths, classifies each archive entry as
duplicate (digest present in the folder) or unique (extracted), and keeps
a progress state (processed bytes, total bytes, current file, start time).

Python dicts are modelled as ordered association lists with Python's
insertion semantics (`d[k] = v` updates the value in place if the key
exists, otherwise appends); the SHA-256 accumulator is modelled by the
byte sequence it has absorbed (hashlib guarantees
`update(a); update(b) = update(a ++ b)`), with the final digest given by
an arbitrary function `H` of the absorbed bytes.
-/

namespace ArchiveInspector

/-- Keys of an association list (Python `dict.keys()`, in insertion order). -/
def keys {α β : Type} (d : List (α × β)) : List α := d.map Prod.fst

/-- Python `d[k] = v` on an ordered dict: update in place if `k` is
already a key (keeping its position), otherwise append `(k, v)`. -/
def insertD {α β : Type} [DecidableEq α] : List (α × β) → α → β → List (α × β)
  | [], k, v => [(k, v)]
  | p :: d, k, v => if p.1 = k then (k, v) :: d else p :: insertD d k v

/-- Python `d[k]` / `k in d`: value of the first (hence, under the dict
invariant of distinct keys, the only) binding of `k`. -/
def dlookup {α β : Type} [DecidableEq α] : List (α × β) → α → Option β
  | [], _ => none
  | p :: d, k => if p.1 = k then some p.2 else dlookup d k

/-- Build a Python dict from a list of key/value pairs in order
(later pairs with an existing key overwrite the stored value). -/
def dictOf {α β : Type} [DecidableEq α] (ps : List (α × β)) : List (α × β) :=
  ps.foldl (fun d p => insertD d p.1 p.2) []

/-- Value of the LAST pair in `ps` whose key is `k` (what a Python dict
built by inserting the pairs of `ps` in order stores under `k`). -/
def lastLookup {α β : Type} [DecidableEq α] : List (α × β) → α → Option β
  | [], _ => none
  | p :: ps, k =>
    match lastLookup ps k with
    | some v => some v
    | none => if p.1 = k then some p.2 else none

/-- Structural worker for `readChunks`; the fuel argument is an upper
bound on the number of reads still possible (each successful read with
`k > 0` consumes at least one byte). -/
def readChunksGo (k : Nat) : Nat → List Nat → List (List Nat)
  | _, [] => []
  | 0, _ :: _ => []
  | fuel + 1, a :: rest =>
    if k = 0 then []
    else (a :: rest).take k :: readChunksGo k fuel ((a :: rest).drop k)

/-- `iter(lambda: f.read(chunk_size), b"")` over a byte source with
content `c`: successive reads of at most `k` bytes until a read returns
the empty bytes object.  With `k = 0` every read returns `b""`, so the
iteration yields no blocks at all. -/
def readChunks (k : Nat) (c : List Nat) : List (List Nat) :=
  readChunksGo k c.length c

/-- The byte sequence absorbed by the SHA-256 accumulator after the chunk
loop, then digested by `H` (the digest function is abstract: `hashlib`
guarantees the accumulator only depends on the concatenation of the
absorbed blocks). -/
def hashStream (H : List Nat → String) (k : Nat) (c : List Nat) : String :=
  H ((readChunks k c).foldl (fun a b => a ++ b) [])

/-- The mutable fields of an `ArchiveComparer` instance.  Hashes are
`String`s (hex digests); byte contents are `List Nat`; `start_time` is an
abstract timestamp (`none` until a scan sets it). -/
structure ComparerState where
  folder_files : List (String × String)
  archive_files : List (String × String)
  chunk_size : Nat
  current_file : String
  total_bytes_processed : Nat
  total_bytes : Nat
  start_time : Option Nat

/-- `ArchiveComparer.__init__`: empty dicts, chunk size 8192, zeroed
counters, no start time. -/
def initState : ComparerState :=
  { folder_files := []
    archive_files := []
    chunk_size := 8192
    current_file := ""
    total_bytes_processed := 0
    total_bytes := 0
    start_time := none }

/-- The unit list of `format_size`'s `for` loop. -/
def size_units : List String := ["B", "KB", "MB", "GB", "TB"]

/-- The `for unit in [...]` loop of `ArchiveComparer.format_size`: return
`(size, unit)` at the first unit where `size < 1024`, else divide by 1024
and continue; falling off the end returns `None`.  The number and the
unit are returned structurally (the Python code renders them as
`f"{size:.2f} {unit}"`); sizes are exact rationals, faithful to the
float arithmetic because division by 1024 only shifts the binary
exponent. -/
def format_size_loop : List String → ℚ → Option (ℚ × String)
  | [], _ => none
  | u :: units, size =>
    if size < 1024 then some (size, u) else format_size_loop units (size / 1024)

/-- `ArchiveComparer.format_size`. -/
def format_size (size : ℚ) : Option (ℚ × String) :=
  format_size_loop size_units size

/-- The per-chunk side effect of the hashing loops: add each consumed
block's length to `self.total_bytes_processed`. -/
def addChunks (chunks : List (List Nat)) (s : ComparerState) : ComparerState :=
  chunks.foldl
    (fun st b => { st with total_bytes_processed := st.total_bytes_processed + b.length })
    s

/-- `ArchiveComparer.calculate_file_hash`: set `current_file`, read the
file in `chunk_size` blocks feeding the SHA-256 accumulator and the
processed-byte counter, return the hex digest. -/
def calculate_file_hash (H : List Nat → String) (s : ComparerState)
    (file_path : String) (content : List Nat) : ComparerState × String :=
  let chunks := readChunks s.chunk_size content
  (addChunks chunks { s with current_file := file_path },
   H (chunks.foldl (fun a b => a ++ b) []))

/-- One file of the `scan_folder` result loop: on a successful hash,
store `folder_files[path] = digest`; a raised per-file error is logged
and the file is skipped. -/
def scanFolderStep (H : List Nat → String) (st : ComparerState)
    (f : String × Bool × Except String (List Nat)) : ComparerState :=
  match f.2.2 with
  | .error _ => st
  | .ok content =>
    let r := calculate_file_hash H st f.1 content
    { r.1 with folder_files := insertD r.1.folder_files f.1 r.2 }

/-- `ArchiveComparer.scan_folder`: record the start time, reset the
processed-byte counter, and hash every regular file under the root
(an input file is `(path, is_file, read outcome)`; `rglob` yields
distinct paths; results are collected in submission order). -/
def scan_folder (H : List Nat → String) (now : Nat)
    (files : List (String × Bool × Except String (List Nat)))
    (s : ComparerState) : ComparerState :=
  (files.filter (fun f => f.2.1)).foldl (scanFolderStep H)
    { s with start_time := some now, total_bytes_processed := 0 }

/-- A ZIP archive entry: name and decompressed byte content. -/
structure ZipEntry where
  filename : String
  content : List Nat

/-- `ZipInfo.is_dir()`: the entry name ends with a slash (tested on the
name's final character). -/
def zIsDir (e : ZipEntry) : Bool := e.filename.data.getLast? == some '/'

/-- One entry of the `scan_archive` loop: skip directory markers;
otherwise set `current_file`, hash the decompressed stream in
`chunk_size` blocks (updating the processed-byte counter), and store
`archive_files[filename] = digest`. -/
def scanArchiveStep (H : List Nat → String) (st : ComparerState)
    (e : ZipEntry) : ComparerState :=
  if zIsDir e then st
  else
    let chunks := readChunks st.chunk_size e.content
    let st2 := addChunks chunks { st with current_file := e.filename }
    { st2 with
      archive_files :=
        insertD st2.archive_files e.filename (H (chunks.foldl (fun a b => a ++ b) [])) }

/-- `ArchiveComparer.scan_archive`. -/
def scan_archive (H : List Nat → String) (entries : List ZipEntry)
    (s : ComparerState) : ComparerState :=
  entries.foldl (scanArchiveStep H) s

/-- `folder_hashes = {hash_value: path for path, hash_value in
comparer.folder_files.items()}` (main, line 212): the digest-to-path
reverse index. -/
def buildReverse (folder_files : List (String × String)) : List (String × String) :=
  folder_files.foldl (fun d e => insertD d e.2 e.1) []

/-- The compare-and-extract loop of `main` (lines 214-220): for each
archive dict item, a digest found among the folder digests appends
`(filename, matching folder path)` to `duplicates`; otherwise the entry
is extracted and its name appended to `extracted`. -/
def classify (folder_files archive_files : List (String × String)) :
    List (String × String) × List String :=
  let folder_hashes := buildReverse folder_files
  archive_files.foldl
    (fun acc e =>
      match dlookup folder_hashes e.2 with
      | some p => (acc.1 ++ [(e.1, p)], acc.2)
      | none => (acc.1, acc.2 ++ [e.1]))
    ([], [])

/-- `ArchiveComparer.get_total_folder_size`: sum of the sizes of the
regular files under the root, skipping files whose probe errors. -/
def get_total_folder_size
    (files : List (String × Bool × Except String (List Nat))) : Nat :=
  files.foldl
    (fun acc f =>
      match f with
      | (_, true, .ok c) => acc + c.length
      | _ => acc)
    0

/-- `ArchiveComparer.get_archive_size`: total uncompressed size over the
whole entry list. -/
def get_archive_size (entries : List ZipEntry) : Nat :=
  entries.foldl (fun acc e => acc + e.content.length) 0

/-- The comparison pipeline of `main` (lines 190-220): size the inputs,
scan the folder, reset the progress counters, scan the archive, then
classify and extract. -/
def main_pipeline (H : List Nat → String) (now1 now2 : Nat)
    (files : List (String × Bool × Except String (List Nat)))
    (entries : List ZipEntry) :
    ComparerState × (List (String × String) × List String) :=
  let s0 := { initState with
    total_bytes := get_total_folder_size files + get_archive_size entries }
  let s1 := scan_folder H now1 files s0
  let s2 := { s1 with total_bytes_processed := 0, start_time := some now2 }
  let s3 := scan_archive H entries s2
  (s3, classify s3.folder_files s3.archive_files)

/-- The folder fingerprint mapping `scan_folder` leaves in
`self.folder_files`: a dict from path to digest over the regular files
whose hashing succeeded. -/
def folderIndex (H : List Nat → String) (k : Nat)
    (files : List (String × Bool × Except String (List Nat))) :
    List (String × String) :=
  dictOf ((files.filter (fun f => f.2.1)).filterMap
    (fun f =>
      match f.2.2 with
      | .ok c => some (f.1, hashStream H k c)
      | .error _ => none))

/-- The archive fingerprint mapping `scan_archive` leaves in
`self.archive_files`: a dict from entry name to digest over the
non-directory entries. -/
def archiveIndex (H : List Nat → String) (k : Nat) (entries : List ZipEntry) :
    List (String × String) :=
  dictOf ((entries.filter (fun e => !zIsDir e)).map
    (fun e => (e.filename, hashStream H k e.content)))

/-- The path of the LAST folder entry (in folder-index iteration order)
whose digest equals `d`. -/
def lastMatch : List (String × String) → String → Option String
  | [], _ => none
  | e :: ff, d =>
    match lastMatch ff d with
    | some p => some p
    | none => if e.2 = d then some e.1 else none

/-- A concrete stand-in digest function for evaluating the model on
explicit inputs (injective on byte contents, like a collision-free
hash). -/
def listHash (c : List Nat) : String := toString c

theorem dlookup_insertD {α β : Type} [DecidableEq α]
    (d : List (α × β)) (k : α) (v : β) (k' : α) :
    dlookup (insertD d k v) k' = if k' = k then some v else dlookup d k' := by
  induction d with
  | nil => simp [insertD, dlookup, eq_comm]
  | cons p d ih =>
    by_cases h : p.1 = k
    · by_cases h' : k' = k
      · simp [insertD, dlookup, h, h']
      · have h2 : ¬ (k = k') := fun hh => h' hh.symm
        have h3 : ¬ (p.1 = k') := fun hh => h2 (h.symm.trans hh)
        simp [insertD, dlookup, h, h', h2, h3]
    · by_cases h' : p.1 = k'
      · have : ¬ (k' = k) := fun hh => h (h'.trans hh)
        simp [insertD, dlookup, h, h', this]
      · simp [insertD, dlookup, h, h', ih]

theorem keys_insertD {α β : Type} [DecidableEq α]
    (d : List (α × β)) (k : α) (v : β) :
    keys (insertD d k v) = if k ∈ keys d then keys d else keys d ++ [k] := by
  induction d with
  | nil => simp [insertD, keys]
  | cons p d ih =>
    by_cases h : p.1 = k
    · simp [insertD, keys, h]
    · have hne : ¬ (k = p.1) := fun hh => h hh.symm
      simp only [keys] at ih
      by_cases hm : k ∈ keys d
      · have hm2 : k ∈ List.map Prod.fst d := hm
        simp only [insertD, if_neg h, keys, List.map_cons]
        rw [ih]
        simp [hm2, hne]
      · have hm2 : k ∉ List.map Prod.fst d := hm
        simp only [insertD, if_neg h, keys, List.map_cons]
        rw [ih]
        simp [hm2, hne]

theorem mem_keys_insertD {α β : Type} [DecidableEq α]
    (d : List (α × β)) (k : α) (v : β) (k' : α) :
    k' ∈ keys (insertD d k v) ↔ k' ∈ keys d ∨ k' = k := by
  rw [keys_insertD]
  by_cases hm : k ∈ keys d
  · simp only [hm, if_true]
    constructor
    · exact fun h => Or.inl h
    · rintro (h | rfl) <;> [exact h; exact hm]
  · simp [hm]

theorem nodup_keys_insertD {α β : Type} [DecidableEq α]
    (d : List (α × β)) (k : α) (v : β) (hnd : (keys d).Nodup) :
    (keys (insertD d k v)).Nodup := by
  rw [keys_insertD]
  by_cases hm : k ∈ keys d
  · simpa [hm] using hnd
  · simp only [hm, if_false]
    exact hnd.append (List.nodup_singleton k)
      (fun a ha hb => hm ((List.mem_singleton.mp hb) ▸ ha))

theorem length_insertD {α β : Type} [DecidableEq α]
    (d : List (α × β)) (k : α) (v : β) :
    (insertD d k v).length = if k ∈ keys d then d.length else d.length + 1 := by
  have h := keys_insertD d k v
  have h1 : (insertD d k v).length = (keys (insertD d k v)).length := by
    simp [keys]
  have h2 : d.length = (keys d).length := by simp [keys]
  by_cases hm : k ∈ keys d <;> simp [hm] at h <;> simp [h1, h2, h, hm]

theorem dlookup_foldl_insertD {α β : Type} [DecidableEq α]
    (ps : List (α × β)) (d0 : List (α × β)) (k : α) :
    dlookup (ps.foldl (fun d p => insertD d p.1 p.2) d0) k =
      match lastLookup ps k with
      | some v => some v
      | none => dlookup d0 k := by
  induction ps generalizing d0 with
  | nil => simp [lastLookup]
  | cons p ps ih =>
    simp only [List.foldl_cons, lastLookup]
    rw [ih]
    cases hl : lastLookup ps k with
    | some v => simp
    | none =>
      rw [dlookup_insertD]
      by_cases h : p.1 = k
      · simp [h]
      · have : ¬ (k = p.1) := fun hh => h hh.symm
        simp [h, this]

theorem dlookup_dictOf {α β : Type} [DecidableEq α] (ps : List (α × β)) (k : α) :
    dlookup (dictOf ps) k = lastLookup ps k := by
  rw [dictOf, dlookup_foldl_insertD]
  cases hl : lastLookup ps k with
  | some v => rfl
  | none => simp [dlookup]

theorem mem_keys_foldl_insertD {α β : Type} [DecidableEq α]
    (ps : List (α × β)) (d0 : List (α × β)) (k : α) :
    k ∈ keys (ps.foldl (fun d p => insertD d p.1 p.2) d0) ↔
      k ∈ keys d0 ∨ k ∈ ps.map Prod.fst := by
  induction ps generalizing d0 with
  | nil => simp
  | cons p ps ih =>
    simp only [List.foldl_cons, List.map_cons, List.mem_cons]
    rw [ih, mem_keys_insertD]
    tauto

theorem mem_keys_dictOf {α β : Type} [DecidableEq α] (ps : List (α × β)) (k : α) :
    k ∈ keys (dictOf ps) ↔ k ∈ ps.map Prod.fst := by
  rw [dictOf, mem_keys_foldl_insertD]
  simp [keys]

theorem nodup_keys_foldl_insertD {α β : Type} [DecidableEq α]
    (ps : List (α × β)) (d0 : List (α × β)) (hnd : (keys d0).Nodup) :
    (keys (ps.foldl (fun d p => insertD d p.1 p.2) d0)).Nodup := by
  induction ps generalizing d0 with
  | nil => exact hnd
  | cons p ps ih => exact ih _ (nodup_keys_insertD _ _ _ hnd)

theorem nodup_keys_dictOf {α β : Type} [DecidableEq α] (ps : List (α × β)) :
    (keys (dictOf ps)).Nodup :=
  nodup_keys_foldl_insertD ps [] (by simp [keys])

theorem length_dictOf {α β : Type} [DecidableEq α] (ps : List (α × β)) :
    (dictOf ps).length = (ps.map Prod.fst).dedup.length := by
  have hperm : List.Perm (keys (dictOf ps)) (ps.map Prod.fst).dedup := by
    rw [List.perm_ext_iff_of_nodup (nodup_keys_dictOf ps)
      (List.nodup_dedup _)]
    intro a
    rw [mem_keys_dictOf, List.mem_dedup]
  have hlen : (keys (dictOf ps)).length = (dictOf ps).length := by simp [keys]
  rw [← hlen, hperm.length_eq]

theorem isSome_lastLookup {α β : Type} [DecidableEq α]
    (ps : List (α × β)) (k : α) :
    (lastLookup ps k).isSome ↔ ∃ v, (k, v) ∈ ps := by
  induction ps with
  | nil => simp [lastLookup]
  | cons p ps ih =>
    simp only [lastLookup]
    cases hl : lastLookup ps k with
    | some v =>
      have : ∃ v, (k, v) ∈ ps := ih.mp (by simp [hl])
      obtain ⟨v', hv'⟩ := this
      simp only [Option.isSome_some, true_iff]
      exact ⟨v', List.mem_cons_of_mem _ hv'⟩
    | none =>
      have hn : ¬ ∃ v, (k, v) ∈ ps := fun h => by
        have := ih.mpr h
        rw [hl] at this
        simp at this
      by_cases h : p.1 = k
      · simp only [h, if_true, Option.isSome_some, true_iff]
        refine ⟨p.2, ?_⟩
        rw [← h]
        exact List.mem_cons_self _ _
      · simp only [h, if_false]
        constructor
        · intro hh
          simp at hh
        · rintro ⟨v, hv⟩
          exfalso
          rcases List.mem_cons.mp hv with hv | hv
          · exact h (congrArg Prod.fst hv).symm
          · exact hn ⟨v, hv⟩

theorem readChunksGo_irrel (k : Nat) :
    ∀ fuel (c : List Nat) (fuel' : Nat), c.length ≤ fuel → c.length ≤ fuel' →
      readChunksGo k fuel c = readChunksGo k fuel' c := by
  intro fuel
  induction fuel with
  | zero =>
    intro c fuel' hc _
    have : c = [] := List.eq_nil_of_length_eq_zero (Nat.le_zero.mp hc)
    subst this
    cases fuel' <;> rfl
  | succ fuel ih =>
    intro c fuel' hc hc'
    cases c with
    | nil => cases fuel' <;> rfl
    | cons a rest =>
      cases fuel' with
      | zero =>
        exfalso
        simp only [List.length_cons] at hc'
        omega
      | succ f' =>
        by_cases hk : k = 0
        · simp [readChunksGo, hk]
        · simp only [readChunksGo, hk, if_false]
          have hlen : ((a :: rest).drop k).length ≤ fuel := by
            simp only [List.length_drop, List.length_cons] at hc ⊢
            omega
          have hlen' : ((a :: rest).drop k).length ≤ f' := by
            simp only [List.length_drop, List.length_cons] at hc' ⊢
            omega
          rw [ih _ f' hlen hlen']

theorem readChunks_nil (k : Nat) : readChunks k [] = [] := rfl

theorem readChunks_cons (k : Nat) (a : Nat) (rest : List Nat) :
    readChunks k (a :: rest) =
      if k = 0 then []
      else (a :: rest).take k :: readChunks k ((a :: rest).drop k) := by
  show readChunksGo k (rest.length + 1) (a :: rest) = _
  by_cases hk : k = 0
  · simp [readChunksGo, hk]
  · simp only [readChunksGo, hk, if_false]
    rw [readChunksGo_irrel k rest.length ((a :: rest).drop k)
      ((a :: rest).drop k).length
      (by simp only [List.length_drop, List.length_cons]; omega)
      (Nat.le_refl _)]
    rfl

theorem foldl_append_readChunks (k : Nat) (hk : 0 < k) :
    ∀ n (c : List Nat), c.length ≤ n → ∀ acc : List Nat,
      (readChunks k c).foldl (fun a b => a ++ b) acc = acc ++ c := by
  intro n
  induction n with
  | zero =>
    intro c hc acc
    have : c = [] := List.eq_nil_of_length_eq_zero (Nat.le_zero.mp hc)
    subst this
    simp [readChunks_nil]
  | succ n ih =>
    intro c hc acc
    cases c with
    | nil => simp [readChunks_nil]
    | cons a rest =>
      rw [readChunks_cons]
      rw [if_neg (Nat.pos_iff_ne_zero.mp hk)]
      rw [List.foldl_cons]
      rw [ih ((a :: rest).drop k) (by
        simp only [List.length_drop, List.length_cons] at hc ⊢
        omega)]
      rw [List.append_assoc, List.take_append_drop]

theorem hashStream_eq (H : List Nat → String) (k : Nat) (hk : 0 < k)
    (c : List Nat) : hashStream H k c = H c := by
  rw [hashStream, foldl_append_readChunks k hk c.length c (Nat.le_refl _) []]
  rfl

theorem addChunks_eq (chunks : List (List Nat)) :
    ∀ s : ComparerState, addChunks chunks s =
      { s with total_bytes_processed :=
          s.total_bytes_processed + (chunks.map List.length).sum } := by
  induction chunks with
  | nil => intro s; simp [addChunks]
  | cons b chunks ih =>
    intro s
    simp only [addChunks, List.foldl_cons] at ih ⊢
    rw [ih]
    simp [Nat.add_assoc]

theorem calculate_file_hash_eq (H : List Nat → String) (s : ComparerState)
    (p : String) (c : List Nat) :
    calculate_file_hash H s p c =
      ({ s with
          current_file := p
          total_bytes_processed := s.total_bytes_processed +
            ((readChunks s.chunk_size c).map List.length).sum },
       hashStream H s.chunk_size c) := by
  rw [calculate_file_hash, addChunks_eq]
  rfl

theorem scanFolderStep_frame (H : List Nat → String) (s : ComparerState)
    (f : String × Bool × Except String (List Nat)) :
    (scanFolderStep H s f).archive_files = s.archive_files ∧
    (scanFolderStep H s f).chunk_size = s.chunk_size ∧
    (scanFolderStep H s f).total_bytes = s.total_bytes ∧
    (scanFolderStep H s f).start_time = s.start_time ∧
    (scanFolderStep H s f).folder_files =
      (match f.2.2 with
       | .ok c => insertD s.folder_files f.1 (hashStream H s.chunk_size c)
       | .error _ => s.folder_files) := by
  cases hf : f.2.2 <;>
    simp [scanFolderStep, hf, calculate_file_hash_eq]

theorem scanFolderLoop_spec (H : List Nat → String)
    (fs : List (String × Bool × Except String (List Nat))) :
    ∀ s : ComparerState,
      (fs.foldl (scanFolderStep H) s).folder_files =
        fs.foldl
          (fun d f =>
            match f.2.2 with
            | .ok c => insertD d f.1 (hashStream H s.chunk_size c)
            | .error _ => d)
          s.folder_files ∧
      (fs.foldl (scanFolderStep H) s).archive_files = s.archive_files ∧
      (fs.foldl (scanFolderStep H) s).chunk_size = s.chunk_size ∧
      (fs.foldl (scanFolderStep H) s).total_bytes = s.total_bytes ∧
      (fs.foldl (scanFolderStep H) s).start_time = s.start_time := by
  induction fs with
  | nil => intro s; exact ⟨rfl, rfl, rfl, rfl, rfl⟩
  | cons f fs ih =>
    intro s
    obtain ⟨sa, sc, st, ss, sf⟩ := scanFolderStep_frame H s f
    obtain ⟨h1, h2, h3, h4, h5⟩ := ih (scanFolderStep H s f)
    simp only [List.foldl_cons]
    refine ⟨?_, h2.trans sa, h3.trans sc, h4.trans st, h5.trans ss⟩
    rw [h1, sc, sf]

theorem scanArchiveStep_frame (H : List Nat → String) (s : ComparerState)
    (e : ZipEntry) :
    (scanArchiveStep H s e).folder_files = s.folder_files ∧
    (scanArchiveStep H s e).chunk_size = s.chunk_size ∧
    (scanArchiveStep H s e).total_bytes = s.total_bytes ∧
    (scanArchiveStep H s e).start_time = s.start_time ∧
    (scanArchiveStep H s e).archive_files =
      (if zIsDir e then s.archive_files
       else insertD s.archive_files e.filename (hashStream H s.chunk_size e.content)) := by
  by_cases hd : zIsDir e <;>
    simp [scanArchiveStep, hd, addChunks_eq, hashStream]

theorem scanArchiveLoop_spec (H : List Nat → String) (entries : List ZipEntry) :
    ∀ s : ComparerState,
      (scan_archive H entries s).archive_files =
        entries.foldl
          (fun d e =>
            if zIsDir e then d
            else insertD d e.filename (hashStream H s.chunk_size e.content))
          s.archive_files ∧
      (scan_archive H entries s).folder_files = s.folder_files ∧
      (scan_archive H entries s).chunk_size = s.chunk_size ∧
      (scan_archive H entries s).total_bytes = s.total_bytes ∧
      (scan_archive H entries s).start_time = s.start_time := by
  induction entries with
  | nil => intro s; exact ⟨rfl, rfl, rfl, rfl, rfl⟩
  | cons e entries ih =>
    intro s
    obtain ⟨sa, sc, st, ss, sf⟩ := scanArchiveStep_frame H s e
    obtain ⟨h1, h2, h3, h4, h5⟩ := ih (scanArchiveStep H s e)
    simp only [scan_archive, List.foldl_cons] at h1 h2 h3 h4 h5 ⊢
    refine ⟨?_, h2.trans sa, h3.trans sc, h4.trans st, h5.trans ss⟩
    rw [h1, sc, sf]

theorem foldl_match_eq_filterMap (H : List Nat → String) (k : Nat)
    (fs : List (String × Bool × Except String (List Nat))) :
    ∀ d0 : List (String × String),
      fs.foldl
        (fun d f =>
          match f.2.2 with
          | .ok c => insertD d f.1 (hashStream H k c)
          | .error _ => d) d0 =
      (fs.filterMap
        (fun f =>
          match f.2.2 with
          | .ok c => some (f.1, hashStream H k c)
          | .error _ => none)).foldl (fun d p => insertD d p.1 p.2) d0 := by
  induction fs with
  | nil => intro d0; rfl
  | cons f fs ih =>
    intro d0
    cases hf : f.2.2 <;>
      simp [List.foldl_cons, List.filterMap_cons, hf, ih]

theorem scan_folder_folder_files (H : List Nat → String) (now : Nat)
    (files : List (String × Bool × Except String (List Nat)))
    (s : ComparerState) (h : s.folder_files = []) :
    (scan_folder H now files s).folder_files = folderIndex H s.chunk_size files := by
  rw [scan_folder]
  obtain ⟨h1, _, _, _, _⟩ := scanFolderLoop_spec H (files.filter (fun f => f.2.1))
    { s with start_time := some now, total_bytes_processed := 0 }
  rw [h1]
  show (files.filter (fun f => f.2.1)).foldl _ s.folder_files = _
  rw [h, foldl_match_eq_filterMap]
  rfl

theorem foldl_dir_eq_map (H : List Nat → String) (k : Nat)
    (entries : List ZipEntry) :
    ∀ d0 : List (String × String),
      entries.foldl
        (fun d e =>
          if zIsDir e then d
          else insertD d e.filename (hashStream H k e.content)) d0 =
      ((entries.filter (fun e => !zIsDir e)).map
        (fun e => (e.filename, hashStream H k e.content))).foldl
          (fun d p => insertD d p.1 p.2) d0 := by
  induction entries with
  | nil => intro d0; rfl
  | cons e entries ih =>
    intro d0
    by_cases hd : zIsDir e <;>
      simp [List.foldl_cons, List.filter_cons, hd, ih]

theorem scan_archive_archive_files (H : List Nat → String)
    (entries : List ZipEntry) (s : ComparerState) (h : s.archive_files = []) :
    (scan_archive H entries s).archive_files = archiveIndex H s.chunk_size entries := by
  obtain ⟨h1, _, _, _, _⟩ := scanArchiveLoop_spec H entries s
  rw [h1, h, foldl_dir_eq_map]
  rfl

theorem classifyLoop_spec (fh : List (String × String))
    (af : List (String × String)) :
    ∀ acc : List (String × String) × List String,
      af.foldl
        (fun acc e =>
          match dlookup fh e.2 with
          | some p => (acc.1 ++ [(e.1, p)], acc.2)
          | none => (acc.1, acc.2 ++ [e.1])) acc =
      (acc.1 ++ af.filterMap (fun e => (dlookup fh e.2).map (fun p => (e.1, p))),
       acc.2 ++ (af.filter (fun e => (dlookup fh e.2).isNone)).map Prod.fst) := by
  induction af with
  | nil => intro acc; simp
  | cons e af ih =>
    intro acc
    cases hl : dlookup fh e.2 <;>
      simp [List.foldl_cons, List.filterMap_cons, List.filter_cons, hl, ih]

theorem classify_eq (ff af : List (String × String)) :
    classify ff af =
      (af.filterMap (fun e => (dlookup (buildReverse ff) e.2).map (fun p => (e.1, p))),
       (af.filter (fun e => (dlookup (buildReverse ff) e.2).isNone)).map Prod.fst) := by
  simp only [classify]
  rw [classifyLoop_spec]
  simp

theorem classify_fst (ff af : List (String × String)) :
    (classify ff af).1 =
      af.filterMap (fun e => (dlookup (buildReverse ff) e.2).map (fun p => (e.1, p))) := by
  rw [classify_eq]

theorem classify_snd (ff af : List (String × String)) :
    (classify ff af).2 =
      (af.filter (fun e => (dlookup (buildReverse ff) e.2).isNone)).map Prod.fst := by
  rw [classify_eq]

theorem classify_length (ff af : List (String × String)) :
    (classify ff af).1.length + (classify ff af).2.length = af.length := by
  rw [classify_fst, classify_snd]
  induction af with
  | nil => rfl
  | cons e af ih =>
    simp only [List.length_map] at ih
    cases hl : dlookup (buildReverse ff) e.2 <;>
      simp [List.filterMap_cons, List.filter_cons, hl] <;>
      omega

theorem buildReverse_eq_dictOf (ff : List (String × String)) :
    buildReverse ff = dictOf (ff.map (fun e => (e.2, e.1))) := by
  rw [buildReverse, dictOf, List.foldl_map]

theorem lastLookup_map_swap (ff : List (String × String)) (d : String) :
    lastLookup (ff.map (fun e => (e.2, e.1))) d = lastMatch ff d := by
  induction ff with
  | nil => rfl
  | cons e ff ih =>
    simp only [List.map_cons, lastLookup, lastMatch, ih]
    cases lastMatch ff d <;> rfl

theorem dlookup_buildReverse (ff : List (String × String)) (d : String) :
    dlookup (buildReverse ff) d = lastMatch ff d := by
  rw [buildReverse_eq_dictOf, dlookup_dictOf, lastLookup_map_swap]

theorem isSome_lastMatch (ff : List (String × String)) (d : String) :
    (lastMatch ff d).isSome ↔ ∃ p, (p, d) ∈ ff := by
  rw [← lastLookup_map_swap, isSome_lastLookup]
  constructor
  · rintro ⟨v, hv⟩
    obtain ⟨e, he, heq⟩ := List.mem_map.mp hv
    have h2 : e.2 = d := congrArg Prod.fst heq
    refine ⟨e.1, ?_⟩
    rw [← h2]
    exact he
  · rintro ⟨p, hp⟩
    exact ⟨p, List.mem_map.mpr ⟨(p, d), hp, rfl⟩⟩

theorem nodup_keys_value_eq {α β : Type} [DecidableEq α] (d : List (α × β))
    (hnd : (keys d).Nodup) (k : α) (v v' : β)
    (h1 : (k, v) ∈ d) (h2 : (k, v') ∈ d) : v = v' := by
  induction d with
  | nil => simp at h1
  | cons p d ih =>
    simp only [keys, List.map_cons, List.nodup_cons] at hnd
    rcases List.mem_cons.mp h1 with e1 | m1 <;> rcases List.mem_cons.mp h2 with e2 | m2
    · rw [← e2] at e1
      exact congrArg Prod.snd e1
    · exfalso
      exact hnd.1 ((congrArg Prod.fst e1) ▸ List.mem_map.mpr ⟨(k, v'), m2, rfl⟩)
    · exfalso
      exact hnd.1 ((congrArg Prod.fst e2) ▸ List.mem_map.mpr ⟨(k, v), m1, rfl⟩)
    · exact ih hnd.2 m1 m2

theorem mem_classify_dups (ff af : List (String × String)) (n p : String) :
    (n, p) ∈ (classify ff af).1 ↔
      ∃ h, (n, h) ∈ af ∧ dlookup (buildReverse ff) h = some p := by
  rw [classify_fst, List.mem_filterMap]
  constructor
  · rintro ⟨e, he, heq⟩
    cases hl : dlookup (buildReverse ff) e.2 with
    | none => rw [hl] at heq; simp at heq
    | some q =>
      rw [hl] at heq
      simp only [Option.map, Option.some.injEq, Prod.mk.injEq] at heq
      obtain ⟨hn, hq⟩ := heq
      refine ⟨e.2, ?_, by rw [hl, hq]⟩
      rw [← hn]
      exact he
  · rintro ⟨h, hmem, hl⟩
    exact ⟨(n, h), hmem, by simp [hl]⟩

theorem mem_classify_ext (ff af : List (String × String)) (n : String) :
    n ∈ (classify ff af).2 ↔
      ∃ h, (n, h) ∈ af ∧ dlookup (buildReverse ff) h = none := by
  rw [classify_snd, List.mem_map]
  constructor
  · rintro ⟨e, he, heq⟩
    rw [List.mem_filter] at he
    refine ⟨e.2, ?_, Option.isNone_iff_eq_none.mp he.2⟩
    rw [← heq]
    exact he.1
  · rintro ⟨h, hmem, hl⟩
    exact ⟨(n, h), List.mem_filter.mpr ⟨hmem, by simp [hl]⟩, rfl⟩

/-- C1, counterexample: with folder mapping `[("p1","h"), ("p2","h")]`
the dict comprehension `{hash: path for path, hash in ...}` stores the
LAST path `"p2"` under digest `"h"`, not the first folder identifier
`"p1"` the claim requires. -/
theorem C1_counterexample :
    ¬ (dlookup (buildReverse [("p1", "h"), ("p2", "h")]) "h" = some "p1") := by
  decide

/-- C1 (amended): the reverse index built from the folder fingerprint
mapping assigns to every digest the LAST folder identifier encountered
when iterating the folder index, and hence the matched folder identifier
reported for any Duplicate archive entry with digest d is the path of the
last folder entry, in folder-index iteration order, whose digest equals
d. -/
theorem C1_reverse_index_takes_last (ff af : List (String × String)) :
    (∀ d : String, dlookup (buildReverse ff) d = lastMatch ff d) ∧
    (∀ n p : String, (n, p) ∈ (classify ff af).1 →
      ∃ h, (n, h) ∈ af ∧ lastMatch ff h = some p) := by
  refine ⟨dlookup_buildReverse ff, fun n p hmem => ?_⟩
  obtain ⟨h, hmem', hl⟩ := (mem_classify_dups ff af n p).mp hmem
  exact ⟨h, hmem', (dlookup_buildReverse ff h) ▸ hl⟩

theorem C1_reverse_index_takes_last_witness :
    dlookup (buildReverse [("p1", "h"), ("p2", "h")]) "h" =
      lastMatch [("p1", "h"), ("p2", "h")] "h" ∧
    ∃ h, ("a.txt", h) ∈ [("a.txt", "h")] ∧
      lastMatch [("p1", "h"), ("p2", "h")] h = some "p2" :=
  ⟨(C1_reverse_index_takes_last [("p1", "h"), ("p2", "h")] [("a.txt", "h")]).1 "h",
   (C1_reverse_index_takes_last [("p1", "h"), ("p2", "h")] [("a.txt", "h")]).2
     "a.txt" "p2" (by decide)⟩

/-- C2: an archive entry is classified Duplicate (appears in the
`duplicates` list) iff some folder file has the same digest, and
classified Unique (appended to `extracted`) iff no folder file does; the
decision depends only on digest equality between the two mappings. -/
theorem C2_duplicate_iff_folder_digest (ff af : List (String × String))
    (hnd : (keys af).Nodup) (n h : String) (hmem : (n, h) ∈ af) :
    ((∃ p, (n, p) ∈ (classify ff af).1) ↔ ∃ p, (p, h) ∈ ff) ∧
    (n ∈ (classify ff af).2 ↔ ¬ ∃ p, (p, h) ∈ ff) := by
  have key : ∀ h' : String,
      (dlookup (buildReverse ff) h').isSome ↔ ∃ p, (p, h') ∈ ff := by
    intro h'
    rw [dlookup_buildReverse, isSome_lastMatch]
  constructor
  · constructor
    · rintro ⟨p, hp⟩
      obtain ⟨h', hmem', hl⟩ := (mem_classify_dups ff af n p).mp hp
      have heq : h' = h := nodup_keys_value_eq af hnd n h' h hmem' hmem
      rw [heq] at hl
      exact (key h).mp (by rw [hl]; rfl)
    · intro hex
      have hs : (dlookup (buildReverse ff) h).isSome = true := (key h).mpr hex
      obtain ⟨q, hq⟩ := Option.isSome_iff_exists.mp hs
      exact ⟨q, (mem_classify_dups ff af n q).mpr ⟨h, hmem, hq⟩⟩
  · rw [mem_classify_ext]
    constructor
    · rintro ⟨h', hmem', hl⟩ hex
      have heq : h' = h := nodup_keys_value_eq af hnd n h' h hmem' hmem
      rw [heq] at hl
      have hs := (key h).mpr hex
      rw [hl] at hs
      simp at hs
    · intro hnex
      refine ⟨h, hmem, ?_⟩
      cases hcase : dlookup (buildReverse ff) h with
      | none => rfl
      | some q => exact absurd ((key h).mp (by rw [hcase]; rfl)) hnex

theorem C2_duplicate_iff_folder_digest_witness :
    (((∃ p, ("a", p) ∈ (classify [("f", "h1")] [("a", "h1"), ("b", "h2")]).1) ↔
      ∃ p, (p, "h1") ∈ [("f", "h1")]) ∧
    ("a" ∈ (classify [("f", "h1")] [("a", "h1"), ("b", "h2")]).2 ↔
      ¬ ∃ p, (p, "h1") ∈ [("f", "h1")])) :=
  C2_duplicate_iff_folder_digest [("f", "h1")] [("a", "h1"), ("b", "h2")]
    (by decide) "a" "h1" (by decide)

/-- C3, counterexample: an archive holding two non-directory entries both
named "a" has 2 non-directory entries but produces only 1 classification
record (the name dict keeps one key), so Duplicate count + Unique count
is 1, not 2. -/
theorem C3_counterexample :
    ¬ ((classify []
          (scan_archive listHash [⟨"a", [0]⟩, ⟨"a", [1]⟩] initState).archive_files).1.length +
       (classify []
          (scan_archive listHash [⟨"a", [0]⟩, ⟨"a", [1]⟩] initState).archive_files).2.length =
       (([⟨"a", [0]⟩, ⟨"a", [1]⟩] : List ZipEntry).filter (fun e => !zIsDir e)).length) := by
  decide

/-- C3 (amended): for every run, Duplicate count + Unique count equals
the number of DISTINCT non-directory entry names of the archive; in
particular, when the archive's non-directory entry names are pairwise
distinct it equals the total number of non-directory entries. -/
theorem C3_record_count (H : List Nat → String) (entries : List ZipEntry)
    (ff : List (String × String)) :
    ((classify ff (scan_archive H entries initState).archive_files).1.length +
     (classify ff (scan_archive H entries initState).archive_files).2.length =
      ((entries.filter (fun e => !zIsDir e)).map ZipEntry.filename).dedup.length) ∧
    (((entries.filter (fun e => !zIsDir e)).map ZipEntry.filename).Nodup →
      (classify ff (scan_archive H entries initState).archive_files).1.length +
      (classify ff (scan_archive H entries initState).archive_files).2.length =
        (entries.filter (fun e => !zIsDir e)).length) := by
  have haf : (scan_archive H entries initState).archive_files =
      archiveIndex H initState.chunk_size entries :=
    scan_archive_archive_files H entries initState rfl
  have hlen : (archiveIndex H initState.chunk_size entries).length =
      ((entries.filter (fun e => !zIsDir e)).map ZipEntry.filename).dedup.length := by
    rw [archiveIndex, length_dictOf, List.map_map]
    rfl
  have hmain : (classify ff (scan_archive H entries initState).archive_files).1.length +
      (classify ff (scan_archive H entries initState).archive_files).2.length =
      ((entries.filter (fun e => !zIsDir e)).map ZipEntry.filename).dedup.length := by
    rw [classify_length, haf, hlen]
  refine ⟨hmain, fun hnd => ?_⟩
  rw [hmain, hnd.dedup, List.length_map]

theorem C3_record_count_witness :
    (classify []
       (scan_archive listHash [⟨"a", [0]⟩, ⟨"b", [1]⟩] initState).archive_files).1.length +
    (classify []
       (scan_archive listHash [⟨"a", [0]⟩, ⟨"b", [1]⟩] initState).archive_files).2.length =
      (([⟨"a", [0]⟩, ⟨"b", [1]⟩] : List ZipEntry).filter (fun e => !zIsDir e)).length :=
  (C3_record_count listHash [⟨"a", [0]⟩, ⟨"b", [1]⟩] []).2 (by decide)

/-- C4: extraction writes exactly the Unique-classified entries and no
others: a relative path is written (appended to `extracted` by
`zip_file.extract`) iff it names an archive entry whose digest is absent
from the folder digest set, and every Duplicate-classified entry is
skipped with no write. -/
theorem C4_extract_exactly_unique (ff af : List (String × String))
    (hnd : (keys af).Nodup) :
    (∀ n : String,
      n ∈ (classify ff af).2 ↔ ∃ h, (n, h) ∈ af ∧ ¬ ∃ p, (p, h) ∈ ff) ∧
    (∀ n p : String, (n, p) ∈ (classify ff af).1 → n ∉ (classify ff af).2) := by
  have key : ∀ h' : String,
      dlookup (buildReverse ff) h' = none ↔ ¬ ∃ p, (p, h') ∈ ff := by
    intro h'
    constructor
    · intro hn hex
      have hs := (isSome_lastMatch ff h').mpr hex
      rw [← dlookup_buildReverse, hn] at hs
      simp at hs
    · intro hnex
      cases hc : dlookup (buildReverse ff) h' with
      | none => rfl
      | some q =>
        exfalso
        apply hnex
        apply (isSome_lastMatch ff h').mp
        rw [← dlookup_buildReverse, hc]
        rfl
  refine ⟨fun n => ?_, fun n p hdup hext => ?_⟩
  · rw [mem_classify_ext]
    constructor
    · rintro ⟨h, hm, hl⟩
      exact ⟨h, hm, (key h).mp hl⟩
    · rintro ⟨h, hm, hne⟩
      exact ⟨h, hm, (key h).mpr hne⟩
  · obtain ⟨h, hm, hl⟩ := (mem_classify_dups ff af n p).mp hdup
    obtain ⟨h', hm', hl'⟩ := (mem_classify_ext ff af n).mp hext
    have heq : h' = h := nodup_keys_value_eq af hnd n h' h hm' hm
    rw [heq, hl] at hl'
    exact Option.noConfusion hl'

theorem C4_extract_exactly_unique_witness :
    (("b" ∈ (classify [("f", "h1")] [("a", "h1"), ("b", "h2")]).2 ↔
      ∃ h, ("b", h) ∈ [("a", "h1"), ("b", "h2")] ∧ ¬ ∃ p, (p, h) ∈ [("f", "h1")]) ∧
    ("a" ∉ (classify [("f", "h1")] [("a", "h1"), ("b", "h2")]).2)) :=
  ⟨(C4_extract_exactly_unique [("f", "h1")] [("a", "h1"), ("b", "h2")] (by decide)).1 "b",
   (C4_extract_exactly_unique [("f", "h1")] [("a", "h1"), ("b", "h2")] (by decide)).2
     "a" "f" (by decide)⟩

/-- C5: directory-marker entries never appear: a directory-marker entry's
name is not a key of the archive fingerprint mapping, it produces no
Duplicate record and no Unique record, and it is never extracted. -/
theorem C5_directory_markers_absent (H : List Nat → String)
    (entries : List ZipEntry) (ff : List (String × String))
    (e : ZipEntry) (_he : e ∈ entries) (hd : zIsDir e = true) :
    e.filename ∉ keys (scan_archive H entries initState).archive_files ∧
    (∀ p : String,
      (e.filename, p) ∉ (classify ff (scan_archive H entries initState).archive_files).1) ∧
    e.filename ∉ (classify ff (scan_archive H entries initState).archive_files).2 := by
  have haf : (scan_archive H entries initState).archive_files =
      archiveIndex H initState.chunk_size entries :=
    scan_archive_archive_files H entries initState rfl
  have hkeys : e.filename ∉ keys (scan_archive H entries initState).archive_files := by
    rw [haf]
    intro hmem
    rw [archiveIndex, mem_keys_dictOf, List.map_map] at hmem
    obtain ⟨e', he', heq⟩ := List.mem_map.mp hmem
    rw [List.mem_filter] at he'
    have hz : zIsDir e' = false := by
      cases hzc : zIsDir e' with
      | false => rfl
      | true => rw [hzc] at he'; simp at he'
    have heq' : e'.filename = e.filename := heq
    rw [zIsDir, heq', ← zIsDir, hd] at hz
    exact Bool.noConfusion hz
  have hkey_of_mem : ∀ (h' : String),
      (e.filename, h') ∈ (scan_archive H entries initState).archive_files →
      e.filename ∈ keys (scan_archive H entries initState).archive_files := by
    intro h' hm
    exact List.mem_map.mpr ⟨(e.filename, h'), hm, rfl⟩
  refine ⟨hkeys, fun p hp => ?_, fun hx => ?_⟩
  · obtain ⟨h', hm, _⟩ := (mem_classify_dups ff _ e.filename p).mp hp
    exact hkeys (hkey_of_mem h' hm)
  · obtain ⟨h', hm, _⟩ := (mem_classify_ext ff _ e.filename).mp hx
    exact hkeys (hkey_of_mem h' hm)

theorem C5_directory_markers_absent_witness :
    ("sub/" : String) ∉
      keys (scan_archive listHash [⟨"sub/", []⟩, ⟨"a", [0]⟩] initState).archive_files ∧
    (∀ p : String, ("sub/", p) ∉
      (classify [] (scan_archive listHash
        [⟨"sub/", []⟩, ⟨"a", [0]⟩] initState).archive_files).1) ∧
    ("sub/" : String) ∉
      (classify [] (scan_archive listHash
        [⟨"sub/", []⟩, ⟨"a", [0]⟩] initState).archive_files).2 :=
  C5_directory_markers_absent listHash [⟨"sub/", []⟩, ⟨"a", [0]⟩] []
    ⟨"sub/", []⟩ (List.mem_cons_self _ _) (by decide)

/-- C6: the content hash is deterministic and chunk-size independent:
hashing a content through the incremental accumulator in `chunk_size`
blocks yields the digest of the whole content at once, and any two
positive chunk sizes yield identical digests for the same content. -/
theorem C6_hash_chunk_independent (H : List Nat → String) (s : ComparerState)
    (p : String) (c : List Nat) (hk : 0 < s.chunk_size) :
    (calculate_file_hash H s p c).2 = H c ∧
    (∀ k₁ k₂ : Nat, 0 < k₁ → 0 < k₂ →
      hashStream H k₁ c = hashStream H k₂ c) := by
  constructor
  · have hr : (calculate_file_hash H s p c).2 = hashStream H s.chunk_size c := rfl
    rw [hr, hashStream_eq H s.chunk_size hk]
  · intro k₁ k₂ h₁ h₂
    rw [hashStream_eq H k₁ h₁, hashStream_eq H k₂ h₂]

theorem C6_hash_chunk_independent_witness :
    (calculate_file_hash listHash initState "f" [1, 2, 3]).2 = listHash [1, 2, 3] ∧
    hashStream listHash 1 [1, 2, 3] = hashStream listHash 4096 [1, 2, 3] :=
  ⟨(C6_hash_chunk_independent listHash initState "f" [1, 2, 3] (by decide)).1,
   (C6_hash_chunk_independent listHash initState "f" [1, 2, 3] (by decide)).2
     1 4096 (by decide) (by decide)⟩

/-- C7: per-file resilience of the folder scan: a file whose hashing
raises an error is logged and excluded from the folder fingerprint
mapping, while the scan continues and every file that hashes
successfully still appears in the mapping. -/
theorem C7_folder_scan_resilient (H : List Nat → String) (now : Nat)
    (files : List (String × Bool × Except String (List Nat)))
    (s : ComparerState) (hempty : s.folder_files = [])
    (hnd : (files.map (fun f => f.1)).Nodup) :
    (∀ p err, (p, true, Except.error err) ∈ files →
      p ∉ keys (scan_folder H now files s).folder_files) ∧
    (∀ p c, (p, true, Except.ok c) ∈ files →
      p ∈ keys (scan_folder H now files s).folder_files) := by
  have hff : (scan_folder H now files s).folder_files =
      folderIndex H s.chunk_size files :=
    scan_folder_folder_files H now files s hempty
  have hmemkeys : ∀ q : String,
      q ∈ keys (folderIndex H s.chunk_size files) ↔
        ∃ f, f ∈ files ∧ f.2.1 = true ∧ (∃ c, f.2.2 = Except.ok c) ∧ f.1 = q := by
    intro q
    rw [folderIndex, mem_keys_dictOf]
    constructor
    · intro hq
      obtain ⟨pr, hpr, hfst⟩ := List.mem_map.mp hq
      obtain ⟨f, hf, hsome⟩ := List.mem_filterMap.mp hpr
      rw [List.mem_filter] at hf
      cases hc : f.2.2 with
      | error err =>
        rw [hc] at hsome
        exact absurd hsome (by simp)
      | ok c =>
        rw [hc] at hsome
        have hpr' : pr = (f.1, hashStream H s.chunk_size c) :=
          (Option.some.inj hsome).symm
        refine ⟨f, hf.1, hf.2, ⟨c, hc⟩, ?_⟩
        rw [← hfst, hpr']
    · rintro ⟨f, hf, hisf, ⟨c, hc⟩, rfl⟩
      apply List.mem_map.mpr
      refine ⟨(f.1, hashStream H s.chunk_size c), ?_, rfl⟩
      apply List.mem_filterMap.mpr
      refine ⟨f, List.mem_filter.mpr ⟨hf, hisf⟩, ?_⟩
      rw [hc]
  constructor
  · intro p err hmem hkey
    rw [hff] at hkey
    obtain ⟨f, hf, _, ⟨c, hc⟩, hfq⟩ := (hmemkeys p).mp hkey
    have hfeq : f = (p, true, Except.error err) :=
      List.inj_on_of_nodup_map hnd hf hmem hfq
    rw [hfeq] at hc
    exact Except.noConfusion hc
  · intro p c hmem
    rw [hff]
    exact (hmemkeys p).mpr ⟨(p, true, Except.ok c), hmem, rfl, ⟨c, rfl⟩, rfl⟩

theorem C7_folder_scan_resilient_witness :
    (("bad" : String) ∉ keys (scan_folder listHash 0
        [("good", true, Except.ok [1]), ("bad", true, Except.error "denied")]
        initState).folder_files) ∧
    (("good" : String) ∈ keys (scan_folder listHash 0
        [("good", true, Except.ok [1]), ("bad", true, Except.error "denied")]
        initState).folder_files) :=
  ⟨(C7_folder_scan_resilient listHash 0
      [("good", true, Except.ok [1]), ("bad", true, Except.error "denied")]
      initState rfl (by decide)).1 "bad" "denied"
      (List.mem_cons_of_mem _ (List.mem_cons_self _ _)),
   (C7_folder_scan_resilient listHash 0
      [("good", true, Except.ok [1]), ("bad", true, Except.error "denied")]
      initState rfl (by decide)).2 "good" [1] (List.mem_cons_self _ _)⟩

/-- C8, counterexample: the claim's list of fields mutated by
`scan_folder` omits the start-time field: even on an empty file list,
`scan_folder` (source line 107) overwrites `start_time`, so it does not
mutate only the processed-byte counter, the current-identifier field and
the result mappings. -/
theorem C8_counterexample :
    ¬ ((scan_folder listHash 5 [] initState).start_time = initState.start_time) := by
  decide

/-- C8 (amended): the total expected byte count is computed once before
any hashing begins and never modified during hashing: `scan_folder`,
`scan_archive` and `calculate_file_hash` leave `total_bytes` unchanged
(the pipeline's final `total_bytes` is exactly the precomputed folder
size + archive size), mutating only the processed-byte counter, the
current-identifier field, the result mappings — and, in the case of
`scan_folder`, the start-time field, together with the counter reset to
zero at scan start. -/
theorem C8_total_bytes_frame (H : List Nat → String) (now : Nat)
    (files : List (String × Bool × Except String (List Nat)))
    (entries : List ZipEntry) (s : ComparerState) (p : String) (c : List Nat)
    (now1 now2 : Nat) :
    (scan_folder H now files s).total_bytes = s.total_bytes ∧
    (scan_folder H now files s).archive_files = s.archive_files ∧
    (scan_folder H now files s).chunk_size = s.chunk_size ∧
    (scan_folder H now files s).start_time = some now ∧
    (scan_archive H entries s).total_bytes = s.total_bytes ∧
    (scan_archive H entries s).folder_files = s.folder_files ∧
    (scan_archive H entries s).chunk_size = s.chunk_size ∧
    (scan_archive H entries s).start_time = s.start_time ∧
    (calculate_file_hash H s p c).1.total_bytes = s.total_bytes ∧
    (calculate_file_hash H s p c).1.folder_files = s.folder_files ∧
    (calculate_file_hash H s p c).1.archive_files = s.archive_files ∧
    (calculate_file_hash H s p c).1.chunk_size = s.chunk_size ∧
    (calculate_file_hash H s p c).1.start_time = s.start_time ∧
    (main_pipeline H now1 now2 files entries).1.total_bytes =
      get_total_folder_size files + get_archive_size entries := by
  obtain ⟨_, f2, f3, f4, f5⟩ := scanFolderLoop_spec H (files.filter (fun f => f.2.1))
    { s with start_time := some now, total_bytes_processed := 0 }
  obtain ⟨_, a2, a3, a4, a5⟩ := scanArchiveLoop_spec H entries s
  have hA : ∀ st : ComparerState,
      (scan_archive H entries st).total_bytes = st.total_bytes :=
    fun st => (scanArchiveLoop_spec H entries st).2.2.2.1
  have hF : ∀ st : ComparerState,
      (scan_folder H now1 files st).total_bytes = st.total_bytes :=
    fun st => (scanFolderLoop_spec H (files.filter (fun f => f.2.1))
      { st with start_time := some now1, total_bytes_processed := 0 }).2.2.2.1
  refine ⟨f4, f2, f3, f5, a4, a2, a3, a5, ?_, ?_, ?_, ?_, ?_, ?_⟩
  · rw [calculate_file_hash_eq]
  · rw [calculate_file_hash_eq]
  · rw [calculate_file_hash_eq]
  · rw [calculate_file_hash_eq]
  · rw [calculate_file_hash_eq]
  · have hmain : (main_pipeline H now1 now2 files entries).1 =
        scan_archive H entries
          { scan_folder H now1 files
              { initState with
                total_bytes := get_total_folder_size files + get_archive_size entries }
            with total_bytes_processed := 0, start_time := some now2 } := rfl
    rw [hmain, hA]
    show (scan_folder H now1 files _).total_bytes = _
    rw [hF]

theorem lastLookup_map_pair {γ : Type} (g : γ → String) (h : γ → String)
    (l : List γ) (n : String) :
    lastLookup (l.map (fun e => (g e, h e))) n =
      (l.reverse.find? (fun e => g e = n)).map h := by
  induction l with
  | nil => rfl
  | cons e l ih =>
    simp only [List.map_cons, lastLookup, List.reverse_cons, ih, List.find?_append]
    cases hf : l.reverse.find? (fun e => g e = n) with
    | some x => simp [Option.or]
    | none =>
      by_cases hg : g e = n
      · simp [Option.or, List.find?, hg]
      · simp [Option.or, List.find?, hg]

theorem archive_record_count (H : List Nat → String) (entries : List ZipEntry)
    (ff : List (String × String)) :
    (classify ff (scan_archive H entries initState).archive_files).1.length +
    (classify ff (scan_archive H entries initState).archive_files).2.length =
      ((entries.filter (fun e => !zIsDir e)).map ZipEntry.filename).dedup.length := by
  have haf := scan_archive_archive_files H entries initState rfl
  rw [classify_length, haf, archiveIndex, length_dictOf, List.map_map]
  rfl

/-- C9: when the archive holds several non-directory entries with one
name, the archive fingerprint mapping holds exactly one key for that
name, whose digest is that of the LAST such entry in archive order, and
the number of classification records equals the number of DISTINCT
non-directory entry names. -/
theorem C9_last_entry_wins (H : List Nat → String) (entries : List ZipEntry)
    (ff : List (String × String)) (n : String)
    (hn : n ∈ (entries.filter (fun e => !zIsDir e)).map ZipEntry.filename) :
    (keys (scan_archive H entries initState).archive_files).count n = 1 ∧
    dlookup (scan_archive H entries initState).archive_files n =
      ((entries.filter (fun e => !zIsDir e)).reverse.find?
        (fun e => e.filename = n)).map (fun e => hashStream H 8192 e.content) ∧
    (classify ff (scan_archive H entries initState).archive_files).1.length +
    (classify ff (scan_archive H entries initState).archive_files).2.length =
      ((entries.filter (fun e => !zIsDir e)).map ZipEntry.filename).dedup.length := by
  have haf : (scan_archive H entries initState).archive_files =
      archiveIndex H initState.chunk_size entries :=
    scan_archive_archive_files H entries initState rfl
  refine ⟨?_, ?_, archive_record_count H entries ff⟩
  · apply List.count_eq_one_of_mem
    · rw [haf, archiveIndex]
      exact nodup_keys_dictOf _
    · rw [haf, archiveIndex, mem_keys_dictOf, List.map_map]
      exact hn
  · rw [haf, archiveIndex, dlookup_dictOf,
      lastLookup_map_pair ZipEntry.filename
        (fun e => hashStream H initState.chunk_size e.content)]
    rfl

theorem C9_last_entry_wins_witness :
    (keys (scan_archive listHash [⟨"a", [0]⟩, ⟨"a", [1]⟩] initState).archive_files).count "a" = 1 ∧
    dlookup (scan_archive listHash [⟨"a", [0]⟩, ⟨"a", [1]⟩] initState).archive_files "a" =
      ((([⟨"a", [0]⟩, ⟨"a", [1]⟩] : List ZipEntry).filter (fun e => !zIsDir e)).reverse.find?
        (fun e => e.filename = "a")).map (fun e => hashStream listHash 8192 e.content) ∧
    (classify []
       (scan_archive listHash [⟨"a", [0]⟩, ⟨"a", [1]⟩] initState).archive_files).1.length +
    (classify []
       (scan_archive listHash [⟨"a", [0]⟩, ⟨"a", [1]⟩] initState).archive_files).2.length =
      ((([⟨"a", [0]⟩, ⟨"a", [1]⟩] : List ZipEntry).filter
        (fun e => !zIsDir e)).map ZipEntry.filename).dedup.length :=
  C9_last_entry_wins listHash [⟨"a", [0]⟩, ⟨"a", [1]⟩] [] "a" (by decide)

/-- C10: `format_size` is partial at the top of its range: every
non-negative size strictly below 1024^5 yields a value/unit pair (the
pair rendered as "<value>.<2 decimals> <unit>") with unit among
B/KB/MB/GB/TB and 0 ≤ value < 1024, while every size at or above 1024^5
exhausts the unit loop and yields no result (None). -/
theorem C10_format_size_range (size : ℚ) :
    (0 ≤ size → size < 1024 ^ 5 →
      ∃ v u, format_size size = some (v, u) ∧
        u ∈ size_units ∧ 0 ≤ v ∧ v < 1024) ∧
    (1024 ^ 5 ≤ size → format_size size = none) := by
  have h1024 : (0 : ℚ) < 1024 := by norm_num
  constructor
  · intro h0 hlt
    rw [format_size, size_units]
    simp only [format_size_loop]
    split_ifs with c1 c2 c3 c4 c5
    · exact ⟨size, "B", rfl, by simp [size_units], h0, c1⟩
    · exact ⟨size / 1024, "KB", rfl, by simp [size_units],
        div_nonneg h0 h1024.le, c2⟩
    · exact ⟨size / 1024 / 1024, "MB", rfl, by simp [size_units],
        div_nonneg (div_nonneg h0 h1024.le) h1024.le, c3⟩
    · exact ⟨size / 1024 / 1024 / 1024, "GB", rfl, by simp [size_units],
        div_nonneg (div_nonneg (div_nonneg h0 h1024.le) h1024.le) h1024.le, c4⟩
    · exact ⟨size / 1024 / 1024 / 1024 / 1024, "TB", rfl, by simp [size_units],
        div_nonneg (div_nonneg (div_nonneg (div_nonneg h0 h1024.le) h1024.le)
          h1024.le) h1024.le, c5⟩
    · exfalso
      apply c5
      rw [div_lt_iff₀ h1024, div_lt_iff₀ h1024, div_lt_iff₀ h1024, div_lt_iff₀ h1024]
      exact hlt.trans_le (by norm_num)
  · intro hge
    rw [format_size, size_units]
    simp only [format_size_loop]
    split_ifs with c1 c2 c3 c4 c5
    · exfalso
      have : (1024 : ℚ) ≤ 1024 ^ 5 := by norm_num
      linarith
    · exfalso
      rw [div_lt_iff₀ h1024] at c2
      have : (1024 : ℚ) * 1024 ≤ 1024 ^ 5 := by norm_num
      linarith
    · exfalso
      rw [div_lt_iff₀ h1024, div_lt_iff₀ h1024] at c3
      have : (1024 : ℚ) * 1024 * 1024 ≤ 1024 ^ 5 := by norm_num
      linarith
    · exfalso
      rw [div_lt_iff₀ h1024, div_lt_iff₀ h1024, div_lt_iff₀ h1024] at c4
      have : (1024 : ℚ) * 1024 * 1024 * 1024 ≤ 1024 ^ 5 := by norm_num
      linarith
    · exfalso
      rw [div_lt_iff₀ h1024, div_lt_iff₀ h1024, div_lt_iff₀ h1024,
        div_lt_iff₀ h1024] at c5
      have : (1024 : ℚ) * 1024 * 1024 * 1024 * 1024 ≤ 1024 ^ 5 := by norm_num
      linarith
    · rfl

theorem C10_format_size_range_witness :
    (∃ v u, format_size 2048 = some (v, u) ∧
      u ∈ size_units ∧ 0 ≤ v ∧ v < 1024) ∧
    format_size (1024 ^ 5) = none :=
  ⟨(C10_format_size_range 2048).1 (by norm_num) (by norm_num),
   (C10_format_size_range (1024 ^ 5)).2 (by norm_num)⟩

end ArchiveInspector

